import Mathlib

/-!
Verification of the albion-calc price resolver, valuation engine and profit
scanner against their design specification.  The TypeScript sources in
`src/frontend/src/utils` are shallowly embedded below: JavaScript numbers are
modelled as rationals (`ℚ`, with `WithTop ℚ` where the code relies on
`Infinity`), JavaScript objects used as string-keyed maps are modelled as
`String → Option _` functions, promises/exceptions as explicit result sums,
and the network as an explicit oracle parameter.
-/

namespace Albion

/-- A market quote row, from `interface PriceRow` in `price_feed.ts`. -/
structure PriceRow where
  item_id : String
  city : String
  sell_price_min : ℚ
  quality : Option ℕ
deriving DecidableEq, Repr

/-- The resolver's verdict for one item, from `interface PickedPrice`. -/
structure PickedPrice where
  price : ℚ
  cityUsed : Option String
deriving DecidableEq, Repr

/-- One step of the minimum-of-positive-prices scan in
`pickPreferredOrMinOther` (`let min = Infinity; ... if (v > 0 && v < min)`);
`none` models the initial `Infinity` / `minCity = null` state. -/
def minOtherStep (acc : Option (ℚ × String)) (r : PriceRow) : Option (ℚ × String) :=
  match acc with
  | none => if 0 < r.sell_price_min then some (r.sell_price_min, r.city) else none
  | some (m, c) =>
      if 0 < r.sell_price_min ∧ r.sell_price_min < m then some (r.sell_price_min, r.city)
      else some (m, c)

/-- The per-item body of `pickPreferredOrMinOther`: `arr` is the group of rows
sharing one `item_id`.  First row of the preferred city is consulted
(`arr.find(...)`); if its price is positive it wins, otherwise the minimum
positive price over all of the item's rows is taken. -/
def preferValue (arr : List PriceRow) (preferCity : String) : ℚ :=
  match arr.find? (fun x => x.city == preferCity) with
  | some r => r.sell_price_min
  | none => 0

/-- The per-item body of `pickPreferredOrMinOther` continued: the preferred
value wins when positive, otherwise the minimum scan decides. -/
def pickOne (arr : List PriceRow) (preferCity : String) : PickedPrice :=
  if 0 < preferValue arr preferCity then
    { price := preferValue arr preferCity, cityUsed := some preferCity }
  else
    match arr.foldl minOtherStep none with
    | some (m, c) => { price := m, cityUsed := some c }
    | none => { price := 0, cityUsed := none }

/-- `pickPreferredOrMinOther` from `price_feed.ts`, as a map from item ids to
verdicts.  Grouping rows by `item_id` preserving row order (`byItem`) is
modelled by filtering the row list per item; ids that never occur in the rows
are absent from the output map. -/
def pickPreferredOrMinOther (rows : List PriceRow) (preferCity : String) (item : String) :
    Option PickedPrice :=
  if rows.any (fun r => r.item_id == item) then
    some (pickOne (rows.filter (fun r => r.item_id == item)) preferCity)
  else none

/-- Accumulator wellformedness for the minimum scan: a recorded minimum is
positive. -/
def MinAccOK (acc : Option (ℚ × String)) : Prop :=
  ∀ m c, acc = some (m, c) → 0 < m

/-- An HTTP response as seen by `fetchWithRetry`: the `ok` flag, the status
code, and the JSON body (already decoded to price rows). -/
structure Response where
  ok : Bool
  status : ℕ
  body : List PriceRow
deriving DecidableEq, Repr

/-- A thrown JavaScript error, identified by its `name` (the code inspects
`(e as any)?.name === "AbortError"`). -/
structure JsError where
  name : String
deriving DecidableEq, Repr

/-- Outcome of one `fetch` call: a settled response or a thrown error. -/
inductive FetchOutcome where
  | resp (r : Response)
  | thrown (e : JsError)
deriving DecidableEq, Repr

/-- Outcome of a whole request: the returned response, or the error the
function throws. -/
inductive ReqResult where
  | ok (r : Response)
  | err (e : JsError)
deriving DecidableEq, Repr

/-- Result of `fetchWithRetry` instrumented with the number of `fetch` calls
issued and backoff sleeps performed. -/
structure RetryResult where
  result : ReqResult
  fetches : ℕ
  sleeps : ℕ
deriving DecidableEq, Repr

/-- The retryable status codes `[429, 502, 503, 504]`. -/
def RETRY_STATUSES : List ℕ := [429, 502, 503, 504]

/-- The `while (attempt < tries)` loop of `fetchWithRetry` in `price_feed.ts`,
structurally recursive on the remaining loop iterations (`tries - attempt`).
The per-attempt `fetch` is an oracle indexed by the attempt number.  When the
loop is exhausted the trailing code runs: rethrow `lastErr` if set, otherwise
one final unretried `fetch`. -/
def retryLoop (oracle : ℕ → FetchOutcome) (attempt : ℕ) (lastErr : Option JsError)
    (fetches sleeps : ℕ) : ℕ → RetryResult
  | 0 =>
      match lastErr with
      | some e => ⟨.err e, fetches, sleeps⟩
      | none =>
          match oracle attempt with
          | .resp r => ⟨.ok r, fetches + 1, sleeps⟩
          | .thrown e => ⟨.err e, fetches + 1, sleeps⟩
  | remaining + 1 =>
      match oracle attempt with
      | .resp r =>
          if r.ok then ⟨.ok r, fetches + 1, sleeps⟩
          else if r.status ∈ RETRY_STATUSES then
            retryLoop oracle (attempt + 1) lastErr (fetches + 1) (sleeps + 1) remaining
          else ⟨.ok r, fetches + 1, sleeps⟩
      | .thrown e =>
          if e.name = "AbortError" then ⟨.err e, fetches + 1, sleeps⟩
          else retryLoop oracle (attempt + 1) (some e) (fetches + 1) (sleeps + 1) remaining

/-- `fetchWithRetry(url, tries, signal)`: run the retry loop from attempt 0. -/
def fetchWithRetry (oracle : ℕ → FetchOutcome) (tries : ℕ := 4) : RetryResult :=
  retryLoop oracle 0 none 0 0 tries

/-- An attempt outcome that makes the loop continue to the next attempt:
a retryable status, or a thrown non-abort error. -/
def retriedOutcome : FetchOutcome → Prop
  | .resp r => r.ok = false ∧ r.status ∈ RETRY_STATUSES
  | .thrown _e => _e.name ≠ "AbortError"

/-- The outcome is a thrown error. -/
def isThrown : FetchOutcome → Prop
  | .resp _ => False
  | .thrown _ => True

/-- The fallback city list `CITY_ORDER` of `price_feed.ts`. -/
def CITY_ORDER : List String :=
  ["Martlock", "Bridgewatch", "Lymhurst", "Fort Sterling", "Thetford", "Caerleon",
    "Brecilien"]

/-- The query city list of `fetchPricesBulk`: the selected city followed by
every other known city. -/
def citiesFor (city : String) : List String :=
  city :: CITY_ORDER.filter (fun c => ¬ c == city)

/-- The composite cache key `server|city|item_id`. -/
def cacheKey (server city id : String) : String :=
  server ++ "|" ++ city ++ "|" ++ id

/-- Insert or overwrite one key of a string-keyed map (`Map.set`, or an
object-property assignment). -/
def mapSet {β : Type} (m : String → Option β) (k : String) (v : β) :
    String → Option β :=
  fun k' => if k' = k then some v else m k'

/-- The evolving state of one `fetchPricesBulk` call: the `prices` and
`picked` output objects, the module cache `memCache`, and the number of
network requests issued so far. -/
structure BulkState where
  prices : String → Option ℚ
  picked : String → Option PickedPrice
  cache : String → Option PickedPrice
  netCalls : ℕ

/-- Outcome of `fetchPricesBulk`: a resolved state, or rejection with the
error a chunk's request threw. -/
inductive BulkResult where
  | ok (st : BulkState)
  | err (e : JsError)

/-- The resolved state of a successful bulk call (dummy state on rejection). -/
def BulkResult.state : BulkResult → BulkState
  | .ok st => st
  | .err _ => ⟨fun _ => none, fun _ => none, fun _ => none, 0⟩

/-- Whether the bulk call resolved. -/
def BulkResult.isOk : BulkResult → Bool
  | .ok _ => true
  | .err _ => false

/-- The network, seen from `fetchMultiCity`: for given chunk ids and city
list, an outcome for each retry attempt. -/
abbrev Net : Type := List String → List String → ℕ → FetchOutcome

/-- Outcome of `fetchMultiCity`: parsed rows, or the error it rethrows. -/
inductive MultiCityResult where
  | rows (rs : List PriceRow)
  | thrown (e : JsError)
deriving DecidableEq, Repr

/-- `fetchMultiCity` from `price_feed.ts`: one retried request for the whole
chunk across all cities; a non-ok response degrades to the empty row list, a
thrown error propagates. -/
def fetchMultiCity (net : Net) (ids cities : List String) : MultiCityResult :=
  match (fetchWithRetry (net ids cities) 4).result with
  | .err e => .thrown e
  | .ok r => .rows (if r.ok then r.body else [])

/-- `[...new Set(arr)]`: deduplication keeping first occurrences in order. -/
def uniqueFirst (l : List String) : List String :=
  l.foldl (fun acc x => if x ∈ acc then acc else acc ++ [x]) []

/-- The `chunk` helper of `price_feed.ts` (`arr.slice(i, i + n)` pieces),
structurally recursive via a fuel argument bounded by the list length. -/
def chunkListAux {α : Type} (n : ℕ) : ℕ → List α → List (List α)
  | 0, l => if l.isEmpty then [] else [l]
  | fuel + 1, l => if l.isEmpty then [] else l.take n :: chunkListAux n fuel (l.drop n)

/-- `chunk(arr, n)`. -/
def chunkList {α : Type} (n : ℕ) (l : List α) : List (List α) :=
  chunkListAux n l.length l

/-- The safe chunk size of the resolver. -/
def CHUNK_SIZE : ℕ := 150

/-- The cache-hit pass of `fetchPricesBulk`: walk the deduplicated ids,
copying cached verdicts into `prices`/`picked` and collecting the misses in
order. -/
def hitLoop (server city : String) : List String → BulkState → BulkState × List String
  | [], st => (st, [])
  | id :: rest, st =>
      match st.cache (cacheKey server city id) with
      | some p =>
          hitLoop server city rest
            { st with prices := mapSet st.prices id p.price,
                      picked := mapSet st.picked id p }
      | none =>
          let r := hitLoop server city rest st
          (r.1, id :: r.2)

/-- Record one resolved id of a chunk: write the verdict (default
`{price: 0, cityUsed: null}` when the response had no rows for it) into the
outputs and the cache. -/
def applyId (server city : String) (pickedChunk : String → Option PickedPrice)
    (st : BulkState) (id : String) : BulkState :=
  let p := (pickedChunk id).getD { price := 0, cityUsed := none }
  { prices := mapSet st.prices id p.price
    picked := mapSet st.picked id p
    cache := mapSet st.cache (cacheKey server city id) p
    netCalls := st.netCalls }

/-- Record a whole chunk's ids. -/
def applyChunk (server city : String) (pickedChunk : String → Option PickedPrice)
    (ids : List String) (st : BulkState) : BulkState :=
  ids.foldl (applyId server city pickedChunk) st

/-- The chunk loop of `fetchPricesBulk`: for each chunk, one multi-city
request (throwing aborts the whole call — the loop has no exception handler),
then selection and recording. -/
def processChunks (net : Net) (server city : String) :
    List (List String) → BulkState → BulkResult
  | [], st => .ok st
  | ids :: rest, st =>
      match fetchMultiCity net ids (citiesFor city) with
      | .thrown e => .err e
      | .rows rows =>
          let st1 := applyChunk server city
            (fun item => pickPreferredOrMinOther rows city item) ids
            { st with netCalls := st.netCalls + 1 }
          processChunks net server city rest st1

/-- The state every bulk call starts from: empty outputs over the given
module cache. -/
def initState (cache0 : String → Option PickedPrice) : BulkState :=
  ⟨fun _ => none, fun _ => none, cache0, 0⟩

/-- The miss list a bulk call computes for given arguments and cache. -/
def missOf (server city : String) (itemIds : List String)
    (cache0 : String → Option PickedPrice) : List String :=
  (hitLoop server city (uniqueFirst itemIds) (initState cache0)).2

/-- `fetchPricesBulk` from `price_feed.ts` (the `PickedPrice` version):
deduplicate, satisfy hits from the cache, chunk the misses, and process the
chunks sequentially. -/
def fetchPricesBulk (net : Net) (server city : String) (itemIds : List String)
    (cache0 : String → Option PickedPrice) : BulkResult :=
  let r := hitLoop server city (uniqueFirst itemIds) (initState cache0)
  if r.2.isEmpty then .ok r.1
  else processChunks net server city (chunkList CHUNK_SIZE r.2) r.1

/-- The rows a chunk's request produced (empty if it threw; only used for
chunks that did not throw). -/
def chunkRows (net : Net) (city : String) (ids : List String) : List PriceRow :=
  match fetchMultiCity net ids (citiesFor city) with
  | .rows rs => rs
  | .thrown _ => []

/-- 151 distinct item ids: with `CHUNK_SIZE = 150` the miss list is split
into two chunks. -/
def c1ids : List String := (List.range 151).map (fun n => "I" ++ toString n)

/-- A network on which every attempt of every request throws an ordinary
(non-abort) error, so the retry loop of the first chunk exhausts its attempts
and rethrows. -/
def c1net : Net := fun _ _ _ => .thrown { name := "TypeError" }

/-- The claimed invariant of a verdict: price zero exactly when no city was
used. -/
def PickedOk (p : PickedPrice) : Prop := p.price = 0 ↔ p.cityUsed = none

/-- All verdicts recorded in a bulk state satisfy the invariant. -/
def StateOk (st : BulkState) : Prop :=
  (∀ id q, st.picked id = some q → PickedOk q) ∧
  (∀ k q, st.cache k = some q → PickedOk q)

/-- The rarity classes (`ArteType`) of `item_meta_resolver.ts`. -/
inductive ArteType where
  | Standard
  | Rune
  | Soul
  | Relic
  | Mist
  | Avalonian
  | Crystal
deriving DecidableEq, Repr

/-- The multiplier table `ART_MULT` of `item_meta_resolver.ts`. -/
def ART_MULT : ArteType → ℚ
  | .Standard => 0
  | .Rune => 4
  | .Soul => 12
  | .Relic => 28
  | .Mist => 28
  | .Avalonian => 60
  | .Crystal => 60

/-- `pow2`: `Math.pow(2, e)` on integer exponents. -/
def pow2 (e : ℤ) : ℚ := (2 : ℚ) ^ e

/-- `shapeMult`: the shapeshifter factor. -/
def shapeMult (is : Bool) : ℚ := if is then 16 / 11 else 1

/-- `computeItemValue` from `item_meta_resolver.ts`. -/
def computeItemValue (tier enchant : ℤ) (numItems : ℚ) (arteType : ArteType)
    (isShapeshifter : Bool) : ℚ :=
  numItems * (16 * pow2 (tier + enchant - 4) + ART_MULT arteType * pow2 (tier - 4)) *
    shapeMult isShapeshifter

/-- `computeUsageFee` from `item_meta_resolver.ts`. -/
def computeUsageFee (itemValue stationFeePer100 : ℚ) : ℚ :=
  itemValue * 0.1125 * (stationFeePer100 / 100)

/-- `CRYSTALIZED_FOR` from `profit_scan.ts`: the crystallized substitute item
id of the substitutable rarity classes; absent (`undefined` at the JavaScript
index access) for Standard, Mist and Crystal. -/
def CRYSTALIZED_FOR : ArteType → Option String
  | .Rune => some "CRYSTALLIZED_SPIRIT"
  | .Soul => some "CRYSTALLIZED_DREAD"
  | .Relic => some "CRYSTALLIZED_MAGIC"
  | .Avalonian => some "CRYSTALLIZED_DIVINITY"
  | _ => none

/-- JavaScript `prices[id] ?? Infinity`: a missing price-map entry is
`Infinity`, modelled as `⊤` of `WithTop ℚ`. -/
def priceOrInf (prices : String → Option ℚ) (id : String) : WithTop ℚ :=
  match prices id with
  | some v => (v : WithTop ℚ)
  | none => ⊤

/-- The `subPrice` binding of `pickArtefactOrCrystallized`:
`subId ? prices[subId] ?? Infinity : Infinity`. -/
def subPriceInf (arteType : ArteType) (prices : String → Option ℚ) : WithTop ℚ :=
  match CRYSTALIZED_FOR arteType with
  | some subId => priceOrInf prices subId
  | none => ⊤

/-- `pickArtefactOrCrystallized` from `profit_scan.ts`:
`artePrice <= subPrice ? artePrice : subPrice` over prices defaulted to
`Infinity`. -/
def pickArtefactOrCrystallized (arteType : ArteType) (arteItemId : String)
    (prices : String → Option ℚ) : WithTop ℚ :=
  if priceOrInf prices arteItemId ≤ subPriceInf arteType prices then
    priceOrInf prices arteItemId
  else subPriceInf arteType prices

/-- The material-cost composition of `scanProfit`
(`materialCost = abCost + arteCost + tomeCost`), whose artefact term lives in
`WithTop ℚ` because a missing price is JavaScript `Infinity`. -/
def materialCostOf (abCost : ℚ) (arteCost : WithTop ℚ) (tomeCost : ℚ) : WithTop ℚ :=
  (abCost : WithTop ℚ) + arteCost + (tomeCost : WithTop ℚ)

/-- The resolved price of the rarity's crystallized substitute: present when
the rarity has a substitute id and that id has a resolved price. -/
def subPriceOf (arteType : ArteType) (prices : String → Option ℚ) : Option ℚ :=
  (CRYSTALIZED_FOR arteType).bind prices

/-- Modelled from the spec: the quality filter of the quality-aware
`fetchPricesBulk` variant.  The component calls `fetchPricesBulk` with a
`qualities` option, but that extended resolver is not among the sources; per
the spec, when requested qualities are given a row whose quality is set and
not in the allowed set is discarded and a row without quality information
passes, and with no requested qualities no filter applies. -/
def passesQuality (qualities : Option (List ℕ)) (r : PriceRow) : Bool :=
  match qualities with
  | none => true
  | some qs =>
      match r.quality with
      | none => true
      | some q => qs.contains q

/-- Modelled from the spec: the rows that participate in selection after the
quality filter. -/
def filterByQuality (qualities : Option (List ℕ)) (rows : List PriceRow) :
    List PriceRow :=
  match qualities with
  | none => rows
  | some _ => rows.filter (passesQuality qualities)

/-- Modelled from the spec: the quality-aware resolver applies the quality
filter to a chunk's rows first, then runs the per-item selection. -/
def pickWithQuality (qualities : Option (List ℕ)) (rows : List PriceRow)
    (preferCity item : String) : Option PickedPrice :=
  pickPreferredOrMinOther (filterByQuality qualities rows) preferCity item

/-- Full characterisation of the minimum-of-positive-prices fold. -/
theorem minOther_fold (arr : List PriceRow) :
    ∀ acc : Option (ℚ × String), MinAccOK acc →
      (arr.foldl minOtherStep acc = none ↔
        (acc = none ∧ ∀ r ∈ arr, ¬ 0 < r.sell_price_min)) ∧
      (∀ m c, arr.foldl minOtherStep acc = some (m, c) →
        0 < m ∧ (acc = some (m, c) ∨ ∃ r ∈ arr, r.sell_price_min = m ∧ r.city = c) ∧
        (∀ r ∈ arr, 0 < r.sell_price_min → m ≤ r.sell_price_min) ∧
        (∀ m' c', acc = some (m', c') → m ≤ m')) := by
  induction arr with
  | nil =>
      intro acc hacc
      constructor
      · simp
      · intro m c hmc
        simp at hmc
        exact ⟨hacc m c hmc, Or.inl hmc, by simp, fun m' c' h' => by
          rw [hmc] at h'; cases h'; exact le_rfl⟩
  | cons r rest ih =>
      intro acc hacc
      have hstep : MinAccOK (minOtherStep acc r) := by
        intro m c h
        unfold minOtherStep at h
        cases acc with
        | none =>
            by_cases hv : 0 < r.sell_price_min
            · simp [hv] at h; rw [← h.1]; exact hv
            · simp [hv] at h
        | some p =>
            obtain ⟨m0, c0⟩ := p
            by_cases hv : 0 < r.sell_price_min ∧ r.sell_price_min < m0
            · simp [hv] at h; rw [← h.1]; exact hv.1
            · simp [hv] at h; rw [← h.1]; exact hacc m0 c0 rfl
      obtain ⟨ihnone, ihsome⟩ := ih (minOtherStep acc r) hstep
      constructor
      · -- none case
        rw [List.foldl_cons, ihnone]
        constructor
        · rintro ⟨hsn, hrest⟩
          unfold minOtherStep at hsn
          cases acc with
          | none =>
              by_cases hv : 0 < r.sell_price_min
              · simp [hv] at hsn
              · exact ⟨rfl, by
                  intro r' hr'
                  rcases List.mem_cons.mp hr' with h | h
                  · rw [h]; exact hv
                  · exact hrest r' h⟩
          | some p =>
              obtain ⟨m0, c0⟩ := p
              by_cases hv : 0 < r.sell_price_min ∧ r.sell_price_min < m0 <;> simp [hv] at hsn
        · rintro ⟨hn, hall⟩
          subst hn
          have hv : ¬ 0 < r.sell_price_min := hall r (List.mem_cons_self r rest)
          constructor
          · unfold minOtherStep; simp [hv]
          · intro r' hr'; exact hall r' (List.mem_cons_of_mem r hr')
      · -- some case
        intro m c h
        rw [List.foldl_cons] at h
        obtain ⟨hpos, hsrc, hmin, hle⟩ := ihsome m c h
        refine ⟨hpos, ?_, ?_, ?_⟩
        · -- source of the value
          rcases hsrc with hs | hs
          · -- came from the stepped accumulator
            unfold minOtherStep at hs
            cases acc with
            | none =>
                by_cases hv : 0 < r.sell_price_min
                · simp [hv] at hs
                  exact Or.inr ⟨r, List.mem_cons_self r rest, hs.1, hs.2⟩
                · simp [hv] at hs
            | some p =>
                obtain ⟨m0, c0⟩ := p
                by_cases hv : 0 < r.sell_price_min ∧ r.sell_price_min < m0
                · simp [hv] at hs
                  exact Or.inr ⟨r, List.mem_cons_self r rest, hs.1, hs.2⟩
                · simp [hv] at hs
                  exact Or.inl (by rw [hs.1, hs.2])
          · obtain ⟨r', hr', h1, h2⟩ := hs
            exact Or.inr ⟨r', List.mem_cons_of_mem r hr', h1, h2⟩
        · -- minimality over all rows
          intro r' hr' hv'
          rcases List.mem_cons.mp hr' with h' | h'
          · subst h'
            unfold minOtherStep at hle
            cases acc with
            | none =>
                have := hle r'.sell_price_min r'.city (by simp [hv'])
                exact this
            | some p =>
                obtain ⟨m0, c0⟩ := p
                by_cases hv : 0 < r'.sell_price_min ∧ r'.sell_price_min < m0
                · exact hle r'.sell_price_min r'.city (by simp [hv])
                · have hm0 : m ≤ m0 := hle m0 c0 (by simp [hv])
                  have : ¬ r'.sell_price_min < m0 := by
                    intro hlt; exact hv ⟨hv', hlt⟩
                  exact hm0.trans (not_lt.mp this)
          · exact hmin r' h' hv'
        · -- bounded by the incoming accumulator
          intro m' c' ha
          subst ha
          unfold minOtherStep at hle
          by_cases hv : 0 < r.sell_price_min ∧ r.sell_price_min < m'
          · have := hle r.sell_price_min r.city (by simp [hv])
            exact this.trans (le_of_lt hv.2)
          · exact hle m' c' (by simp [hv])

/-- A successful `find?` over the city predicate returns a member row of the
preferred city. -/
theorem find?_city_spec (arr : List PriceRow) (preferCity : String) (r : PriceRow)
    (h : arr.find? (fun x => x.city == preferCity) = some r) :
    r ∈ arr ∧ r.city = preferCity := by
  refine ⟨List.mem_of_find?_eq_some h, ?_⟩
  have := List.find?_some h
  simpa using this

/-- When every row of the group has a nonpositive price, the verdict is the
zero price with no city. -/
theorem pickOne_nonpos (arr : List PriceRow) (preferCity : String)
    (h : ∀ r ∈ arr, r.sell_price_min ≤ 0) :
    pickOne arr preferCity = { price := 0, cityUsed := none } := by
  have hpv : ¬ 0 < preferValue arr preferCity := by
    unfold preferValue
    cases hf : arr.find? (fun x => x.city == preferCity) with
    | none => simp
    | some r =>
        simp only []
        exact not_lt.mpr (h r (List.mem_of_find?_eq_some hf))
  have hfold : arr.foldl minOtherStep none = none := by
    rcases (minOther_fold arr none (by intro m c hc; cases hc)).1 with ⟨_, hiff⟩
    exact hiff ⟨rfl, fun r hr => not_lt.mpr (h r hr)⟩
  unfold pickOne
  simp [hpv, hfold]

/-- The verdict of one group: price zero exactly when no city was used. -/
theorem pickOne_zero_iff (arr : List PriceRow) (preferCity : String) :
    (pickOne arr preferCity).price = 0 ↔ (pickOne arr preferCity).cityUsed = none := by
  unfold pickOne
  by_cases hpv : 0 < preferValue arr preferCity
  · simp [hpv, ne_of_gt hpv]
  · simp only [hpv, if_false]
    cases hfold : arr.foldl minOtherStep none with
    | none => simp
    | some p =>
        obtain ⟨m, c⟩ := p
        have hm : 0 < m :=
          ((minOther_fold arr none (by intro m c hc; cases hc)).2 m c hfold).1
        simp [ne_of_gt hm]

/-- Claim C3, counterexample.  Two rows of the preferred city `M` for the same
item, prices `5` then `3`: the code keeps the first preferred-city row's price
`5`, not the minimum preferred-city price `3` that the claim requires. -/
theorem claim3_counterexample :
    pickPreferredOrMinOther
        [⟨"IT", "M", 5, none⟩, ⟨"IT", "M", 3, none⟩] "M" "IT" =
      some { price := 5, cityUsed := some "M" } ∧
    (([⟨"IT", "M", 5, none⟩, ⟨"IT", "M", 3, none⟩] : List PriceRow).filter
        (fun r => r.item_id == "IT" && r.city == "M" && decide (0 < r.sell_price_min))).map
        (fun r => r.sell_price_min) = [5, 3] ∧
    pickPreferredOrMinOther
        [⟨"IT", "M", 5, none⟩, ⟨"IT", "M", 3, none⟩] "M" "IT" ≠
      some { price := 3, cityUsed := some "M" } := by
  refine ⟨by decide, by decide, by decide⟩

/-- Claim C3 as amended: the resolver consults only the first row of the
preferred city (`arr.find`).  If that first preferred-city row has a strictly
positive price, exactly that price is returned with the preferred city, even
when lower positive prices exist elsewhere; if there is no preferred-city row
or the first one's price is nonpositive, and some row of the item has a
strictly positive price, the global minimum positive price over all of the
item's rows (preferred city included) is returned together with a city of a
row attaining it. -/
theorem claim3_amended (rows : List PriceRow) (preferCity item : String) :
    (∀ r, (rows.filter (fun x => x.item_id == item)).find? (fun x => x.city == preferCity) =
        some r → 0 < r.sell_price_min →
      pickPreferredOrMinOther rows preferCity item =
        some { price := r.sell_price_min, cityUsed := some preferCity }) ∧
    ((∀ r, (rows.filter (fun x => x.item_id == item)).find? (fun x => x.city == preferCity) =
        some r → r.sell_price_min ≤ 0) →
      (∃ r ∈ rows, r.item_id = item ∧ 0 < r.sell_price_min) →
      ∃ p, pickPreferredOrMinOther rows preferCity item = some p ∧ 0 < p.price ∧
        (∃ r ∈ rows, r.item_id = item ∧ r.sell_price_min = p.price ∧
          p.cityUsed = some r.city) ∧
        (∀ r ∈ rows, r.item_id = item → 0 < r.sell_price_min →
          p.price ≤ r.sell_price_min)) := by
  constructor
  · intro r hfind hpos
    have hmem : r ∈ rows.filter (fun x => x.item_id == item) :=
      List.mem_of_find?_eq_some hfind
    have hany : rows.any (fun x => x.item_id == item) = true := by
      rw [List.any_eq_true]
      refine ⟨r, (List.mem_filter.mp hmem).1, (List.mem_filter.mp hmem).2⟩
    have hpv : preferValue (rows.filter (fun x => x.item_id == item)) preferCity =
        r.sell_price_min := by
      unfold preferValue; rw [hfind]
    unfold pickPreferredOrMinOther pickOne
    rw [if_pos hany, hpv, if_pos hpos]
  · intro hno hex
    obtain ⟨r0, hr0m, hr0i, hr0p⟩ := hex
    have hr0f : r0 ∈ rows.filter (fun x => x.item_id == item) :=
      List.mem_filter.mpr ⟨hr0m, by simpa using hr0i⟩
    have hany : rows.any (fun x => x.item_id == item) = true := by
      rw [List.any_eq_true]
      exact ⟨r0, hr0m, by simpa using hr0i⟩
    have hpv : ¬ 0 < preferValue (rows.filter (fun x => x.item_id == item)) preferCity := by
      unfold preferValue
      cases hf : (rows.filter (fun x => x.item_id == item)).find?
          (fun x => x.city == preferCity) with
      | none => simp
      | some r => exact not_lt.mpr (hno r hf)
    have hmf := minOther_fold (rows.filter (fun x => x.item_id == item)) none
      (by intro m c hc; cases hc)
    cases hfold : (rows.filter (fun x => x.item_id == item)).foldl minOtherStep none with
    | none =>
        exfalso
        have := (hmf.1.mp hfold).2 r0 hr0f
        exact this hr0p
    | some p =>
        obtain ⟨m, c⟩ := p
        obtain ⟨hm, hsrc, hmin, _⟩ := hmf.2 m c hfold
        refine ⟨{ price := m, cityUsed := some c }, ?_, hm, ?_, ?_⟩
        · unfold pickPreferredOrMinOther pickOne
          rw [if_pos hany, if_neg hpv, hfold]
        · rcases hsrc with hs | hs
          · cases hs
          · obtain ⟨r', hr', h1, h2⟩ := hs
            have := List.mem_filter.mp hr'
            exact ⟨r', this.1, by simpa using this.2, h1, by simpa using (congrArg some h2).symm⟩
        · intro r hr hri hrp
          exact hmin r (List.mem_filter.mpr ⟨hr, by simpa using hri⟩) hrp

/-- Witness for the amended claim C3, at a concrete input exercising the
first-preferred-row branch. -/
theorem claim3_amended_witness :
    pickPreferredOrMinOther
        [⟨"A", "M", 7, none⟩, ⟨"A", "X", 2, none⟩] "M" "A" =
      some { price := 7, cityUsed := some "M" } :=
  (claim3_amended [⟨"A", "M", 7, none⟩, ⟨"A", "X", 2, none⟩] "M" "A").1
    ⟨"A", "M", 7, none⟩ (by decide) (by norm_num)

/-- Claim C10: every verdict is grounded in the input rows — a nonzero verdict
carries the exact `sell_price_min` of some input row of that item together
with that same row's city, a zero verdict carries no city, and items that do
not occur in the rows get no verdict at all. -/
theorem claim10_grounded (rows : List PriceRow) (preferCity : String) :
    (∀ item p, pickPreferredOrMinOther rows preferCity item = some p →
      (p.price = 0 ∧ p.cityUsed = none) ∨
      ∃ r ∈ rows, r.item_id = item ∧ r.sell_price_min = p.price ∧
        p.cityUsed = some r.city) ∧
    (∀ item, (∀ r ∈ rows, r.item_id ≠ item) →
      pickPreferredOrMinOther rows preferCity item = none) := by
  constructor
  · intro item p hp
    unfold pickPreferredOrMinOther at hp
    by_cases hany : rows.any (fun r => r.item_id == item) = true
    · rw [if_pos hany] at hp
      have hp' : pickOne (rows.filter (fun r => r.item_id == item)) preferCity = p :=
        Option.some.inj hp
      unfold pickOne at hp'
      by_cases hpv : 0 < preferValue (rows.filter (fun r => r.item_id == item)) preferCity
      · rw [if_pos hpv] at hp'
        right
        unfold preferValue at hpv hp'
        cases hf : (rows.filter (fun r => r.item_id == item)).find?
            (fun x => x.city == preferCity) with
        | none => rw [hf] at hpv; simp at hpv
        | some r =>
            rw [hf] at hp'
            obtain ⟨hrm, hrc⟩ := find?_city_spec _ _ _ hf
            have := List.mem_filter.mp hrm
            exact ⟨r, this.1, by simpa using this.2, by rw [← hp'], by rw [← hp', hrc]⟩
      · rw [if_neg hpv] at hp'
        cases hfold : (rows.filter (fun r => r.item_id == item)).foldl minOtherStep none with
        | none => rw [hfold] at hp'; left; rw [← hp']; exact ⟨rfl, rfl⟩
        | some q =>
            obtain ⟨m, c⟩ := q
            rw [hfold] at hp'
            right
            obtain ⟨hm, hsrc, _, _⟩ :=
              (minOther_fold (rows.filter (fun r => r.item_id == item)) none
                (by intro m c hc; cases hc)).2 m c hfold
            rcases hsrc with hs | hs
            · cases hs
            · obtain ⟨r', hr', h1, h2⟩ := hs
              have := List.mem_filter.mp hr'
              exact ⟨r', this.1, by simpa using this.2, by rw [← hp', h1],
                by rw [← hp']; simpa using (congrArg some h2).symm⟩
    · rw [if_neg hany] at hp; cases hp
  · intro item hno
    unfold pickPreferredOrMinOther
    rw [if_neg]
    rw [List.any_eq_true]
    rintro ⟨r, hr, hri⟩
    exact hno r hr (by simpa using hri)

/-- Witness for claim C10, instantiating the grounding at a concrete input. -/
theorem claim10_grounded_witness :
    ((⟨3, some "X"⟩ : PickedPrice).price = 0 ∧
        (⟨3, some "X"⟩ : PickedPrice).cityUsed = none) ∨
      (∃ r ∈ ([⟨"A", "M", 0, none⟩, ⟨"A", "X", 3, none⟩] : List PriceRow),
        r.item_id = "A" ∧ r.sell_price_min = (⟨3, some "X"⟩ : PickedPrice).price ∧
        (⟨3, some "X"⟩ : PickedPrice).cityUsed = some r.city) :=
  (claim10_grounded [⟨"A", "M", 0, none⟩, ⟨"A", "X", 3, none⟩] "M").1 "A"
    ⟨3, some "X"⟩ (by decide)

/-- Reaching an abort at distance `d` from the current attempt rethrows it at
once, with exactly the sleeps of the earlier retried attempts. -/
theorem retryLoop_abort (oracle : ℕ → FetchOutcome) (e : JsError)
    (hname : e.name = "AbortError") :
    ∀ (d attempt : ℕ) (lastErr : Option JsError) (f s remaining : ℕ),
      d ≤ remaining →
      (∀ j, attempt ≤ j → j < attempt + d → retriedOutcome (oracle j)) →
      (d = remaining → lastErr = none ∧
        ∀ j, attempt ≤ j → j < attempt + d → ¬ isThrown (oracle j)) →
      oracle (attempt + d) = .thrown e →
      retryLoop oracle attempt lastErr f s remaining = ⟨.err e, f + d + 1, s + d⟩ := by
  intro d
  induction d with
  | zero =>
      intro attempt lastErr f s remaining hd hprev hfin habort
      rw [Nat.add_zero] at habort
      cases remaining with
      | zero =>
          obtain ⟨hle, _⟩ := hfin rfl
          subst hle
          simp [retryLoop, habort]
      | succ r' =>
          simp [retryLoop, habort, hname]
  | succ d' ih =>
      intro attempt lastErr f s remaining hd hprev hfin habort
      cases remaining with
      | zero => omega
      | succ r' =>
          have hstep : retriedOutcome (oracle attempt) :=
            hprev attempt le_rfl (by omega)
          cases hout : oracle attempt with
          | resp r0 =>
              rw [hout] at hstep
              obtain ⟨hok, hst⟩ := hstep
              have hrec := ih (attempt + 1) lastErr (f + 1) (s + 1) r' (by omega)
                (fun j h1 h2 => hprev j (by omega) (by omega))
                (fun hde => by
                  obtain ⟨h1, h2⟩ := hfin (by omega)
                  exact ⟨h1, fun j ha hb => h2 j (by omega) (by omega)⟩)
                (by rw [show attempt + 1 + d' = attempt + (d' + 1) by omega]; exact habort)
              have hfe : f + 1 + d' + 1 = f + (d' + 1) + 1 := by omega
              have hse : s + 1 + d' = s + (d' + 1) := by omega
              rw [hfe, hse] at hrec
              simp [retryLoop, hout, hok, hst, hrec]
          | thrown e0 =>
              rw [hout] at hstep
              have hnab : ¬ e0.name = "AbortError" := hstep
              have hrec := ih (attempt + 1) (some e0) (f + 1) (s + 1) r' (by omega)
                (fun j h1 h2 => hprev j (by omega) (by omega))
                (fun hde => by
                  exfalso
                  obtain ⟨_, h2⟩ := hfin (by omega)
                  exact h2 attempt le_rfl (by omega) (by rw [hout]; trivial))
                (by rw [show attempt + 1 + d' = attempt + (d' + 1) by omega]; exact habort)
              have hfe : f + 1 + d' + 1 = f + (d' + 1) + 1 := by omega
              have hse : s + 1 + d' = s + (d' + 1) := by omega
              rw [hfe, hse] at hrec
              simp [retryLoop, hout, hnab, hrec]

/-- Claim C6: if the fetch of any attempt that the retry loop actually reaches
rejects with an abort error, `fetchWithRetry` rethrows that very error
immediately: the result is the unconverted error, no further fetch is issued
(`fetches = k + 1`), and no backoff sleep is added beyond the `k` sleeps the
earlier retried attempts already performed (`sleeps = k`). -/
theorem claim6_abort_propagates (oracle : ℕ → FetchOutcome) (tries k : ℕ) (e : JsError)
    (hk : k ≤ tries)
    (hprev : ∀ j < k, retriedOutcome (oracle j))
    (hfin : k = tries → ∀ j < k, ¬ isThrown (oracle j))
    (habort : oracle k = .thrown e) (hname : e.name = "AbortError") :
    fetchWithRetry oracle tries = ⟨.err e, k + 1, k⟩ := by
  unfold fetchWithRetry
  have := retryLoop_abort oracle e hname k 0 none 0 0 tries hk
    (fun j h1 h2 => hprev j (by omega))
    (fun hkt => ⟨rfl, fun j h1 h2 => hfin hkt j (by omega)⟩)
    (by rw [Nat.zero_add]; exact habort)
  rw [this]
  simp

/-- Witness for claim C6: one retryable 429 attempt followed by an abort. -/
theorem claim6_abort_propagates_witness :
    fetchWithRetry
        (fun j => if j = 0 then .resp ⟨false, 429, []⟩ else .thrown ⟨"AbortError"⟩) 4 =
      ⟨.err ⟨"AbortError"⟩, 2, 1⟩ :=
  claim6_abort_propagates
    (fun j => if j = 0 then .resp ⟨false, 429, []⟩ else .thrown ⟨"AbortError"⟩) 4 1
    ⟨"AbortError"⟩ (by omega)
    (fun j hj => by
      have : j = 0 := by omega
      subst this
      exact ⟨rfl, by decide⟩)
    (fun h => absurd h (by omega))
    rfl rfl

/-- For fixed server and city, the composite key determines the item id. -/
theorem cacheKey_inj {server city id1 id2 : String}
    (h : cacheKey server city id1 = cacheKey server city id2) : id1 = id2 := by
  unfold cacheKey at h
  have hd := congrArg String.data h
  simp only [String.data_append] at hd
  exact String.ext (List.append_cancel_left hd)

/-- Membership is preserved by first-occurrence deduplication. -/
theorem mem_uniqueFirst (l : List String) (x : String) :
    x ∈ uniqueFirst l ↔ x ∈ l := by
  have key : ∀ (l : List String) (acc : List String),
      x ∈ l.foldl (fun acc x => if x ∈ acc then acc else acc ++ [x]) acc ↔
        x ∈ acc ∨ x ∈ l := by
    intro l
    induction l with
    | nil => intro acc; simp
    | cons y ys ih =>
        intro acc
        rw [List.foldl_cons]
        by_cases hy : y ∈ acc
        · rw [if_pos hy, ih]
          constructor
          · rintro (h | h)
            · exact Or.inl h
            · exact Or.inr (List.mem_cons_of_mem y h)
          · rintro (h | h)
            · exact Or.inl h
            · rcases List.mem_cons.mp h with h | h
              · exact Or.inl (h ▸ hy)
              · exact Or.inr h
        · rw [if_neg hy, ih]
          constructor
          · rintro (h | h)
            · rcases List.mem_append.mp h with h | h
              · exact Or.inl h
              · simp at h
                exact Or.inr (List.mem_cons.mpr (Or.inl h))
            · exact Or.inr (List.mem_cons_of_mem y h)
          · rintro (h | h)
            · exact Or.inl (List.mem_append.mpr (Or.inl h))
            · rcases List.mem_cons.mp h with h | h
              · exact Or.inl (List.mem_append.mpr (Or.inr (by simp [h])))
              · exact Or.inr h
  unfold uniqueFirst
  rw [key l []]
  simp

/-- First-occurrence deduplication yields a duplicate-free list. -/
theorem nodup_uniqueFirst (l : List String) : (uniqueFirst l).Nodup := by
  have key : ∀ (l : List String) (acc : List String), acc.Nodup →
      (l.foldl (fun acc x => if x ∈ acc then acc else acc ++ [x]) acc).Nodup := by
    intro l
    induction l with
    | nil => intro acc h; simpa using h
    | cons y ys ih =>
        intro acc h
        rw [List.foldl_cons]
        by_cases hy : y ∈ acc
        · rw [if_pos hy]; exact ih acc h
        · rw [if_neg hy]
          refine ih (acc ++ [y]) ?_
          rw [List.nodup_append]
          exact ⟨h, List.nodup_singleton y, by simpa using hy⟩
  exact key l [] List.nodup_nil

/-- Joining the chunks gives back the original list. -/
theorem chunkListAux_join {α : Type} (n : ℕ) :
    ∀ (fuel : ℕ) (l : List α), (chunkListAux n fuel l).flatten = l := by
  intro fuel
  induction fuel with
  | zero =>
      intro l
      unfold chunkListAux
      cases l with
      | nil => simp
      | cons x xs => simp
  | succ fuel ih =>
      intro l
      unfold chunkListAux
      cases l with
      | nil => simp
      | cons x xs =>
          simp only [List.isEmpty_cons, if_false, List.flatten_cons, Bool.false_eq_true]
          rw [ih]
          exact List.take_append_drop n (x :: xs)

/-- Joining the chunks gives back the chunked list. -/
theorem chunkList_join {α : Type} (n : ℕ) (l : List α) :
    (chunkList n l).flatten = l :=
  chunkListAux_join n l.length l

/-- The hit pass changes neither the cache nor the request counter. -/
theorem hitLoop_cache_netCalls (server city : String) :
    ∀ (l : List String) (st : BulkState),
      (hitLoop server city l st).1.cache = st.cache ∧
      (hitLoop server city l st).1.netCalls = st.netCalls := by
  intro l
  induction l with
  | nil => intro st; exact ⟨rfl, rfl⟩
  | cons id rest ih =>
      intro st
      unfold hitLoop
      cases hc : st.cache (cacheKey server city id) with
      | some p => exact ih _
      | none => exact ih st

/-- The misses are exactly the walked ids without a cache entry, in order. -/
theorem hitLoop_miss (server city : String) :
    ∀ (l : List String) (st : BulkState),
      (hitLoop server city l st).2 =
        l.filter (fun id => (st.cache (cacheKey server city id)).isNone) := by
  intro l
  induction l with
  | nil => intro st; rfl
  | cons id rest ih =>
      intro st
      unfold hitLoop
      cases hc : st.cache (cacheKey server city id) with
      | some p =>
          rw [List.filter_cons]
          simp only [hc, Option.isNone_some, Bool.false_eq_true, if_false]
          exact ih _
      | none =>
          rw [List.filter_cons]
          simp only [hc, Option.isNone_none, if_true]
          rw [ih st]

/-- Ids not walked by the hit pass keep their output entries. -/
theorem hitLoop_notmem (server city : String) :
    ∀ (l : List String) (st : BulkState) (id : String), id ∉ l →
      (hitLoop server city l st).1.picked id = st.picked id ∧
      (hitLoop server city l st).1.prices id = st.prices id := by
  intro l
  induction l with
  | nil => intro st id _; exact ⟨rfl, rfl⟩
  | cons id0 rest ih =>
      intro st id hid
      have hne : id ≠ id0 := fun h => hid (h ▸ List.mem_cons_self id0 rest)
      have hrest : id ∉ rest := fun h => hid (List.mem_cons_of_mem id0 h)
      unfold hitLoop
      cases hc : st.cache (cacheKey server city id0) with
      | some p =>
          obtain ⟨h1, h2⟩ := ih _ id hrest
          rw [h1, h2]
          simp [mapSet, hne]
      | none => exact ih st id hrest

/-- A walked id with a cache entry ends with that entry in the outputs. -/
theorem hitLoop_hit (server city : String) :
    ∀ (l : List String) (st : BulkState) (id : String) (p : PickedPrice),
      st.cache (cacheKey server city id) = some p → id ∈ l →
      (hitLoop server city l st).1.picked id = some p ∧
      (hitLoop server city l st).1.prices id = some p.price := by
  intro l
  induction l with
  | nil => intro st id p _ h; cases h
  | cons id0 rest ih =>
      intro st id p hp hid
      unfold hitLoop
      by_cases hmem : id ∈ rest
      · cases hc : st.cache (cacheKey server city id0) with
        | some q => exact ih _ id p (by simpa using hp) hmem
        | none => exact ih st id p hp hmem
      · have heq : id = id0 := by
          rcases List.mem_cons.mp hid with h | h
          · exact h
          · exact absurd h hmem
        subst heq
        rw [hp]
        obtain ⟨h1, h2⟩ := hitLoop_notmem server city rest _ id hmem
        rw [h1, h2]
        simp [mapSet]

/-- A walked id without a cache entry keeps its output entries. -/
theorem hitLoop_missid (server city : String) :
    ∀ (l : List String) (st : BulkState) (id : String),
      st.cache (cacheKey server city id) = none →
      (hitLoop server city l st).1.picked id = st.picked id ∧
      (hitLoop server city l st).1.prices id = st.prices id := by
  intro l
  induction l with
  | nil => intro st id _; exact ⟨rfl, rfl⟩
  | cons id0 rest ih =>
      intro st id hp
      unfold hitLoop
      cases hc : st.cache (cacheKey server city id0) with
      | some q =>
          have hne : id ≠ id0 := fun h => by rw [h, hc] at hp; cases hp
          obtain ⟨h1, h2⟩ := ih
            { st with prices := mapSet st.prices id0 q.price,
                      picked := mapSet st.picked id0 q } id hp
          rw [h1, h2]
          simp [mapSet, hne]
      | none => exact ih st id hp

/-- Recording a chunk leaves the request counter unchanged. -/
theorem applyChunk_netCalls (server city : String)
    (pc : String → Option PickedPrice) :
    ∀ (ids : List String) (st : BulkState),
      (applyChunk server city pc ids st).netCalls = st.netCalls := by
  intro ids
  induction ids with
  | nil => intro st; rfl
  | cons id0 rest ih =>
      intro st
      unfold applyChunk at ih ⊢
      rw [List.foldl_cons, ih]
      rfl

/-- Ids outside a chunk keep their output entries when the chunk is
recorded. -/
theorem applyChunk_notmem (server city : String)
    (pc : String → Option PickedPrice) :
    ∀ (ids : List String) (st : BulkState) (id : String), id ∉ ids →
      (applyChunk server city pc ids st).picked id = st.picked id ∧
      (applyChunk server city pc ids st).prices id = st.prices id := by
  intro ids
  induction ids with
  | nil => intro st id _; exact ⟨rfl, rfl⟩
  | cons id0 rest ih =>
      intro st id hid
      have hne : id ≠ id0 := fun h => hid (h ▸ List.mem_cons_self id0 rest)
      have hrest : id ∉ rest := fun h => hid (List.mem_cons_of_mem id0 h)
      unfold applyChunk at ih ⊢
      rw [List.foldl_cons]
      obtain ⟨h1, h2⟩ := ih (applyId server city pc st id0) id hrest
      rw [h1, h2]
      unfold applyId
      simp [mapSet, hne]

/-- Cache keys not written by a chunk keep their entries. -/
theorem applyChunk_cache_other (server city : String)
    (pc : String → Option PickedPrice) :
    ∀ (ids : List String) (st : BulkState) (k : String),
      (∀ id ∈ ids, cacheKey server city id ≠ k) →
      (applyChunk server city pc ids st).cache k = st.cache k := by
  intro ids
  induction ids with
  | nil => intro st k _; rfl
  | cons id0 rest ih =>
      intro st k hk
      unfold applyChunk at ih ⊢
      rw [List.foldl_cons]
      rw [ih (applyId server city pc st id0) k
        (fun id h => hk id (List.mem_cons_of_mem id0 h))]
      have hne := hk id0 (List.mem_cons_self id0 rest)
      unfold applyId
      simp only [mapSet]
      rw [if_neg (fun h => hne h.symm)]

/-- Recording a chunk writes, for each of its ids, the chunk verdict (or the
zero default) consistently into `picked`, `prices` and the cache. -/
theorem applyChunk_mem (server city : String)
    (pc : String → Option PickedPrice) :
    ∀ (ids : List String) (st : BulkState) (id : String), id ∈ ids →
      (applyChunk server city pc ids st).picked id =
        some ((pc id).getD { price := 0, cityUsed := none }) ∧
      (applyChunk server city pc ids st).prices id =
        some ((pc id).getD { price := 0, cityUsed := none }).price ∧
      (applyChunk server city pc ids st).cache (cacheKey server city id) =
        some ((pc id).getD { price := 0, cityUsed := none }) := by
  intro ids
  induction ids with
  | nil => intro st id h; cases h
  | cons id0 rest ih =>
      intro st id hid
      by_cases hmem : id ∈ rest
      · unfold applyChunk at ih ⊢
        rw [List.foldl_cons]
        exact ih (applyId server city pc st id0) id hmem
      · have heq : id = id0 := by
          rcases List.mem_cons.mp hid with h | h
          · exact h
          · exact absurd h hmem
        subst heq
        unfold applyChunk
        rw [List.foldl_cons]
        have hother : ∀ id' ∈ rest, cacheKey server city id' ≠ cacheKey server city id :=
          fun id' h' hkey => hmem (cacheKey_inj hkey ▸ h')
        obtain ⟨h1, h2⟩ := applyChunk_notmem server city pc rest
          (applyId server city pc st id) id hmem
        have h3 := applyChunk_cache_other server city pc rest
          (applyId server city pc st id) (cacheKey server city id) hother
        unfold applyChunk at h1 h2 h3
        rw [h1, h2, h3]
        unfold applyId
        simp [mapSet]

/-- A chunk whose request throws makes the whole chunk loop reject. -/
theorem processChunks_err (net : Net) (server city : String) :
    ∀ (chunks : List (List String)) (st : BulkState),
      (∃ c ∈ chunks, ∃ e, fetchMultiCity net c (citiesFor city) = .thrown e) →
      ∃ e, processChunks net server city chunks st = .err e := by
  intro chunks
  induction chunks with
  | nil => rintro st ⟨c, hc, _⟩; cases hc
  | cons c0 rest ih =>
      rintro st ⟨c, hc, e, he⟩
      unfold processChunks
      cases hfc : fetchMultiCity net c0 (citiesFor city) with
      | thrown e0 => exact ⟨e0, rfl⟩
      | rows rows =>
          rcases List.mem_cons.mp hc with h | h
          · subst h; rw [hfc] at he; cases he
          · exact ih _ ⟨c, h, e, he⟩

/-- If no chunk's request throws, the chunk loop resolves. -/
theorem processChunks_resolves (net : Net) (server city : String) :
    ∀ (chunks : List (List String)) (st : BulkState),
      (∀ c ∈ chunks, ∀ e, fetchMultiCity net c (citiesFor city) ≠ .thrown e) →
      ∃ st', processChunks net server city chunks st = .ok st' := by
  intro chunks
  induction chunks with
  | nil => intro st _; exact ⟨st, rfl⟩
  | cons c0 rest ih =>
      intro st hok
      unfold processChunks
      cases hfc : fetchMultiCity net c0 (citiesFor city) with
      | thrown e0 => exact absurd hfc (hok c0 (List.mem_cons_self c0 rest) e0)
      | rows rows =>
          exact ih _ (fun c h e => hok c (List.mem_cons_of_mem c0 h) e)

/-- What a resolved chunk loop guarantees: untouched ids keep their entries,
unwritten cache keys keep theirs, and every processed id gets one verdict
written consistently to `picked`, `prices` and the cache. -/
theorem processChunks_okResult (net : Net) (server city : String) :
    ∀ (chunks : List (List String)) (st st' : BulkState),
      processChunks net server city chunks st = .ok st' →
      (∀ id, id ∉ chunks.flatten →
        st'.picked id = st.picked id ∧ st'.prices id = st.prices id) ∧
      (∀ k, (∀ id ∈ chunks.flatten, cacheKey server city id ≠ k) →
        st'.cache k = st.cache k) ∧
      (∀ id ∈ chunks.flatten, ∃ p, st'.picked id = some p ∧
        st'.prices id = some p.price ∧ st'.cache (cacheKey server city id) = some p) := by
  intro chunks
  induction chunks with
  | nil =>
      intro st st' h
      cases h
      exact ⟨fun id _ => ⟨rfl, rfl⟩, fun k _ => rfl, fun id h => absurd h (by simp)⟩
  | cons c0 rest ih =>
      intro st st' h
      unfold processChunks at h
      cases hfc : fetchMultiCity net c0 (citiesFor city) with
      | thrown e0 => rw [hfc] at h; cases h
      | rows rows =>
          rw [hfc] at h
          dsimp only at h
          obtain ⟨ihnot, ihcache, ihmem⟩ := ih _ st' h
          refine ⟨?_, ?_, ?_⟩
          · intro id hid
            rw [List.flatten_cons] at hid
            have hc0 : id ∉ c0 := fun hh => hid (List.mem_append.mpr (Or.inl hh))
            have hrest : id ∉ rest.flatten := fun hh => hid (List.mem_append.mpr (Or.inr hh))
            obtain ⟨h1, h2⟩ := ihnot id hrest
            obtain ⟨h3, h4⟩ := applyChunk_notmem server city
              (fun item => pickPreferredOrMinOther rows city item) c0
              { st with netCalls := st.netCalls + 1 } id hc0
            exact ⟨h1.trans h3, h2.trans h4⟩
          · intro k hk
            rw [List.flatten_cons] at hk
            have h1 := ihcache k (fun id h => hk id (List.mem_append.mpr (Or.inr h)))
            have h2 := applyChunk_cache_other server city
              (fun item => pickPreferredOrMinOther rows city item) c0
              { st with netCalls := st.netCalls + 1 } k
              (fun id h => hk id (List.mem_append.mpr (Or.inl h)))
            exact h1.trans h2
          · intro id hid
            rw [List.flatten_cons] at hid
            by_cases hrest : id ∈ rest.flatten
            · exact ihmem id hrest
            · have hc0 : id ∈ c0 := by
                rcases List.mem_append.mp hid with h' | h'
                · exact h'
                · exact absurd h' hrest
              obtain ⟨h1, h2, h3⟩ := applyChunk_mem server city
                (fun item => pickPreferredOrMinOther rows city item) c0
                { st with netCalls := st.netCalls + 1 } id hc0
              obtain ⟨h4, h5⟩ := ihnot id hrest
              have h6 := ihcache (cacheKey server city id)
                (fun id' h' hkey => hrest (cacheKey_inj hkey ▸ h'))
              exact ⟨(pickPreferredOrMinOther rows city id).getD
                  { price := 0, cityUsed := none },
                h4.trans h1, h5.trans h2, h6.trans h3⟩

/-- With pairwise-distinct processed ids, each id's final verdict is exactly
the selection over its own chunk's rows (or the zero default when the chunk
response had no rows for it). -/
theorem processChunks_value (net : Net) (server city : String) :
    ∀ (chunks : List (List String)) (st st' : BulkState),
      processChunks net server city chunks st = .ok st' →
      chunks.flatten.Nodup →
      ∀ c ∈ chunks, ∀ id ∈ c,
        st'.picked id =
          some ((pickPreferredOrMinOther (chunkRows net city c) city id).getD
            { price := 0, cityUsed := none }) ∧
        st'.prices id =
          some ((pickPreferredOrMinOther (chunkRows net city c) city id).getD
            { price := 0, cityUsed := none }).price := by
  intro chunks
  induction chunks with
  | nil => intro st st' _ _ c hc; cases hc
  | cons c0 rest ih =>
      intro st st' h hnd c hc id hid
      unfold processChunks at h
      cases hfc : fetchMultiCity net c0 (citiesFor city) with
      | thrown e0 => rw [hfc] at h; cases h
      | rows rows =>
          rw [hfc] at h
          dsimp only at h
          rw [List.flatten_cons] at hnd
          obtain ⟨hnd0, hndrest, hdisj⟩ := List.nodup_append.mp hnd
          rcases List.mem_cons.mp hc with hh | hh
          · subst hh
            have hrows : chunkRows net city c = rows := by
              unfold chunkRows; rw [hfc]
            have hnotrest : id ∉ rest.flatten := fun hmem => hdisj hid hmem
            obtain ⟨h4, h5⟩ := (processChunks_okResult net server city rest _ st' h).1
              id hnotrest
            obtain ⟨h1, h2, _⟩ := applyChunk_mem server city
              (fun item => pickPreferredOrMinOther rows city item) c
              { st with netCalls := st.netCalls + 1 } id hid
            rw [hrows]
            exact ⟨h4.trans h1, h5.trans h2⟩
          · exact ih _ st' h hndrest c hh id hid

/-- Unfolding equation of the bulk call. -/
theorem fetchPricesBulk_eq (net : Net) (server city : String) (itemIds : List String)
    (cache0 : String → Option PickedPrice) :
    fetchPricesBulk net server city itemIds cache0 =
      if (missOf server city itemIds cache0).isEmpty then
        .ok (hitLoop server city (uniqueFirst itemIds) (initState cache0)).1
      else
        processChunks net server city
          (chunkList CHUNK_SIZE (missOf server city itemIds cache0))
          (hitLoop server city (uniqueFirst itemIds) (initState cache0)).1 := rfl

/-- The misses of a bulk call are duplicate-free. -/
theorem missOf_nodup (server city : String) (itemIds : List String)
    (cache0 : String → Option PickedPrice) :
    (missOf server city itemIds cache0).Nodup := by
  unfold missOf
  rw [hitLoop_miss]
  exact (nodup_uniqueFirst itemIds).filter _

/-- The misses are the deduplicated ids without a cache entry. -/
theorem missOf_eq (server city : String) (itemIds : List String)
    (cache0 : String → Option PickedPrice) :
    missOf server city itemIds cache0 =
      (uniqueFirst itemIds).filter
        (fun id => (cache0 (cacheKey server city id)).isNone) := by
  unfold missOf
  rw [hitLoop_miss]
  rfl

/-- Claim C1 as amended: when every chunk's request settles (even with a
non-ok status, which `fetchMultiCity` degrades to an empty row list), the bulk
call resolves, every miss id receives a verdict, and the ids of a chunk whose
request produced no rows are recorded as `{price: 0, cityUsed: null}`.  But a
chunk whose request throws (a network failure surviving the retry loop) makes
the whole bulk call reject — the chunk loop has no exception handler — so the
remaining chunks are not requested. -/
theorem claim1_amended (net : Net) (server city : String) (itemIds : List String)
    (cache0 : String → Option PickedPrice) :
    ((∀ c ∈ chunkList CHUNK_SIZE (missOf server city itemIds cache0),
        ∀ e, fetchMultiCity net c (citiesFor city) ≠ .thrown e) →
      ∃ st, fetchPricesBulk net server city itemIds cache0 = .ok st ∧
        (∀ id ∈ missOf server city itemIds cache0, ∃ p, st.picked id = some p) ∧
        (∀ c ∈ chunkList CHUNK_SIZE (missOf server city itemIds cache0),
          fetchMultiCity net c (citiesFor city) = .rows [] →
          ∀ id ∈ c, st.picked id = some { price := 0, cityUsed := none } ∧
            st.prices id = some 0)) ∧
    ((∃ c ∈ chunkList CHUNK_SIZE (missOf server city itemIds cache0),
        ∃ e, fetchMultiCity net c (citiesFor city) = .thrown e) →
      ∃ e, fetchPricesBulk net server city itemIds cache0 = .err e) := by
  have hflat : (chunkList CHUNK_SIZE (missOf server city itemIds cache0)).flatten =
      missOf server city itemIds cache0 := chunkList_join _ _
  constructor
  · intro hok
    rw [fetchPricesBulk_eq]
    by_cases hemp : (missOf server city itemIds cache0).isEmpty
    · rw [if_pos hemp]
      have hn : missOf server city itemIds cache0 = [] := List.isEmpty_iff.mp hemp
      refine ⟨_, rfl, ?_, ?_⟩
      · intro id hid; rw [hn] at hid; cases hid
      · intro c hc
        rw [hn] at hc
        simp [chunkList, chunkListAux] at hc
    · rw [if_neg hemp]
      obtain ⟨st', hst'⟩ := processChunks_resolves net server city _ _ hok
      refine ⟨st', hst', ?_, ?_⟩
      · intro id hid
        obtain ⟨p, hp, _, _⟩ :=
          (processChunks_okResult net server city _ _ _ hst').2.2 id
            (by rw [hflat]; exact hid)
        exact ⟨p, hp⟩
      · intro c hc hrows id hid
        have hnd : (chunkList CHUNK_SIZE (missOf server city itemIds cache0)).flatten.Nodup := by
          rw [hflat]; exact missOf_nodup server city itemIds cache0
        obtain ⟨h1, h2⟩ :=
          processChunks_value net server city _ _ st' hst' hnd c hc id hid
        have hcr : chunkRows net city c = [] := by unfold chunkRows; rw [hrows]
        rw [hcr] at h1 h2
        exact ⟨h1, h2⟩
  · rintro ⟨c, hc, e, he⟩
    rw [fetchPricesBulk_eq]
    by_cases hemp : (missOf server city itemIds cache0).isEmpty
    · exfalso
      rw [List.isEmpty_iff.mp hemp] at hc
      simp [chunkList, chunkListAux] at hc
    · rw [if_neg hemp]
      exact processChunks_err net server city _ _ ⟨c, hc, e, he⟩

/-- Witness for the amended claim C1: a two-id call whose single chunk settles
with rows for only one of the ids. -/
theorem claim1_amended_witness :
    ∃ st, fetchPricesBulk (fun _ _ _ => .resp ⟨true, 200, [⟨"A", "M", 5, none⟩]⟩)
        "W" "M" ["A", "B"] (fun _ => none) = .ok st ∧
      (∀ id ∈ missOf "W" "M" ["A", "B"] (fun _ => none), ∃ p, st.picked id = some p) ∧
      (∀ c ∈ chunkList CHUNK_SIZE (missOf "W" "M" ["A", "B"] (fun _ => none)),
        fetchMultiCity (fun _ _ _ => .resp ⟨true, 200, [⟨"A", "M", 5, none⟩]⟩) c
          (citiesFor "M") = .rows [] →
        ∀ id ∈ c, st.picked id = some { price := 0, cityUsed := none } ∧
          st.prices id = some 0) :=
  (claim1_amended (fun _ _ _ => .resp ⟨true, 200, [⟨"A", "M", 5, none⟩]⟩)
      "W" "M" ["A", "B"] (fun _ => none)).1
    (fun c _ e he => by
      rw [show fetchMultiCity (fun _ _ _ => .resp ⟨true, 200, [⟨"A", "M", 5, none⟩]⟩) c
          (citiesFor "M") = .rows [⟨"A", "M", 5, none⟩] from rfl] at he
      cases he)

/-- Claim C7: after a successful bulk call, every requested id has a cache
entry under `server|city|id`, and a repeated call with the same arguments —
over any network at all — resolves from the cache alone: it issues zero
network requests and returns pointwise the same `prices` and `picked` maps. -/
theorem claim7_idempotent (net net2 : Net) (server city : String)
    (itemIds : List String) (cache0 : String → Option PickedPrice) (st : BulkState)
    (h : fetchPricesBulk net server city itemIds cache0 = .ok st) :
    (∀ id ∈ itemIds, ∃ p, st.cache (cacheKey server city id) = some p) ∧
    ∃ st2, fetchPricesBulk net2 server city itemIds st.cache = .ok st2 ∧
      st2.netCalls = 0 ∧ (∀ id, st2.prices id = st.prices id) ∧
      (∀ id, st2.picked id = st.picked id) := by
  have hflat : (chunkList CHUNK_SIZE (missOf server city itemIds cache0)).flatten =
      missOf server city itemIds cache0 := chunkList_join _ _
  have hmisseq := missOf_eq server city itemIds cache0
  have hhitc := hitLoop_cache_netCalls server city (uniqueFirst itemIds) (initState cache0)
  -- central characterisation of the final state
  have P1 : ∀ id ∈ uniqueFirst itemIds, ∃ p,
      st.cache (cacheKey server city id) = some p ∧ st.picked id = some p ∧
      st.prices id = some p.price := by
    rw [fetchPricesBulk_eq] at h
    by_cases hemp : (missOf server city itemIds cache0).isEmpty
    · rw [if_pos hemp] at h
      have hst : (hitLoop server city (uniqueFirst itemIds) (initState cache0)).1 = st := by
        cases h; rfl
      intro id hid
      have hidnomiss : ¬ (cache0 (cacheKey server city id)).isNone = true := by
        have := List.isEmpty_iff.mp hemp
        rw [hmisseq] at this
        exact fun hn => by
          have := (List.filter_eq_nil_iff.mp this) id hid
          exact this hn
      cases hc : cache0 (cacheKey server city id) with
      | none => rw [hc] at hidnomiss; simp at hidnomiss
      | some p =>
          obtain ⟨hpk, hpr⟩ := hitLoop_hit server city (uniqueFirst itemIds)
            (initState cache0) id p hc hid
          rw [hst] at hpk hpr
          refine ⟨p, ?_, hpk, hpr⟩
          rw [← hst, hhitc.1]
          exact hc
    · rw [if_neg hemp] at h
      obtain ⟨pcnot, pccache, pcmem⟩ := processChunks_okResult net server city _ _ _ h
      intro id hid
      by_cases hidm : id ∈ missOf server city itemIds cache0
      · obtain ⟨p, h1, h2, h3⟩ := pcmem id (by rw [hflat]; exact hidm)
        exact ⟨p, h3, h1, h2⟩
      · have hsome : ¬ (cache0 (cacheKey server city id)).isNone = true := by
          intro hn
          exact hidm (by
            rw [hmisseq]
            exact List.mem_filter.mpr ⟨hid, hn⟩)
        cases hc : cache0 (cacheKey server city id) with
        | none => rw [hc] at hsome; simp at hsome
        | some p =>
            have hkeys : ∀ id' ∈ (chunkList CHUNK_SIZE
                (missOf server city itemIds cache0)).flatten,
                cacheKey server city id' ≠ cacheKey server city id := by
              intro id' hid' hkey
              rw [hflat] at hid'
              exact hidm (cacheKey_inj hkey ▸ hid')
            have hcache : st.cache (cacheKey server city id) = some p := by
              rw [pccache _ hkeys, hhitc.1]
              exact hc
            obtain ⟨hpk, hpr⟩ := hitLoop_hit server city (uniqueFirst itemIds)
              (initState cache0) id p hc hid
            obtain ⟨h1, h2⟩ := pcnot id (by rw [hflat]; exact hidm)
            exact ⟨p, hcache, h1.trans hpk, h2.trans hpr⟩
  have P2 : ∀ id, id ∉ uniqueFirst itemIds →
      st.picked id = none ∧ st.prices id = none := by
    intro id hid
    have hbase := hitLoop_notmem server city (uniqueFirst itemIds) (initState cache0) id hid
    rw [fetchPricesBulk_eq] at h
    by_cases hemp : (missOf server city itemIds cache0).isEmpty
    · rw [if_pos hemp] at h
      have hst : (hitLoop server city (uniqueFirst itemIds) (initState cache0)).1 = st := by
        cases h; rfl
      rw [← hst]
      exact hbase
    · rw [if_neg hemp] at h
      have hidm : id ∉ missOf server city itemIds cache0 := by
        intro hm
        rw [hmisseq] at hm
        exact hid (List.mem_filter.mp hm).1
      obtain ⟨h1, h2⟩ := (processChunks_okResult net server city _ _ _ h).1 id
        (by rw [hflat]; exact hidm)
      exact ⟨h1.trans hbase.1, h2.trans hbase.2⟩
  have hcachedall : ∀ id ∈ itemIds, ∃ p, st.cache (cacheKey server city id) = some p := by
    intro id hid
    obtain ⟨p, hp, _, _⟩ := P1 id ((mem_uniqueFirst itemIds id).mpr hid)
    exact ⟨p, hp⟩
  refine ⟨hcachedall, ?_⟩
  -- the second call is satisfied from the cache
  have hmiss2 : missOf server city itemIds st.cache = [] := by
    rw [missOf_eq]
    rw [List.filter_eq_nil_iff]
    intro id hid hn
    obtain ⟨p, hp, _, _⟩ := P1 id hid
    rw [hp] at hn
    simp at hn
  have hfetch2 : fetchPricesBulk net2 server city itemIds st.cache =
      .ok (hitLoop server city (uniqueFirst itemIds) (initState st.cache)).1 := by
    rw [fetchPricesBulk_eq, if_pos (by rw [hmiss2]; rfl)]
  have hhitc2 := hitLoop_cache_netCalls server city (uniqueFirst itemIds)
    (initState st.cache)
  refine ⟨_, hfetch2, hhitc2.2, ?_, ?_⟩
  · intro id
    by_cases hid : id ∈ uniqueFirst itemIds
    · obtain ⟨p, hp, hpk, hpr⟩ := P1 id hid
      obtain ⟨_, h2⟩ := hitLoop_hit server city (uniqueFirst itemIds)
        (initState st.cache) id p hp hid
      rw [h2, hpr]
    · obtain ⟨_, h2⟩ := hitLoop_notmem server city (uniqueFirst itemIds)
        (initState st.cache) id hid
      rw [h2, (P2 id hid).2]
      rfl
  · intro id
    by_cases hid : id ∈ uniqueFirst itemIds
    · obtain ⟨p, hp, hpk, hpr⟩ := P1 id hid
      obtain ⟨h1, _⟩ := hitLoop_hit server city (uniqueFirst itemIds)
        (initState st.cache) id p hp hid
      rw [h1, hpk]
    · obtain ⟨h1, _⟩ := hitLoop_notmem server city (uniqueFirst itemIds)
        (initState st.cache) id hid
      rw [h1, (P2 id hid).1]
      rfl

set_option maxRecDepth 100000 in
/-- Claim C1, counterexample.  A bulk call whose 151 misses split into two
chunks, where the first chunk's request throws after exhausting its retries:
the claim demands that the call still resolve with `{price: 0, cityUsed:
null}` for the failed chunk's ids, but the code rejects the whole call — the
second chunk is never requested and no maps are returned at all. -/
theorem claim1_counterexample :
    (chunkList CHUNK_SIZE (missOf "West" "Martlock" c1ids (fun _ => none))).length = 2 ∧
    fetchPricesBulk c1net "West" "Martlock" c1ids (fun _ => none) =
      .err { name := "TypeError" } :=
  ⟨by decide, rfl⟩

/-- Witness for claim C7: a one-id call over a network that returns a row,
then the guaranteed cache hit on repetition. -/
theorem claim7_idempotent_witness :
    (∀ id ∈ ["A"], ∃ p,
      (fetchPricesBulk (fun _ _ _ => .resp ⟨true, 200, [⟨"A", "M", 5, none⟩]⟩)
          "W" "M" ["A"] (fun _ => none)).state.cache (cacheKey "W" "M" id) = some p) ∧
    ∃ st2, fetchPricesBulk (fun _ _ _ => .thrown ⟨"TypeError"⟩) "W" "M" ["A"]
        (fetchPricesBulk (fun _ _ _ => .resp ⟨true, 200, [⟨"A", "M", 5, none⟩]⟩)
          "W" "M" ["A"] (fun _ => none)).state.cache = .ok st2 ∧
      st2.netCalls = 0 ∧
      (∀ id, st2.prices id =
        (fetchPricesBulk (fun _ _ _ => .resp ⟨true, 200, [⟨"A", "M", 5, none⟩]⟩)
          "W" "M" ["A"] (fun _ => none)).state.prices id) ∧
      (∀ id, st2.picked id =
        (fetchPricesBulk (fun _ _ _ => .resp ⟨true, 200, [⟨"A", "M", 5, none⟩]⟩)
          "W" "M" ["A"] (fun _ => none)).state.picked id) :=
  claim7_idempotent (fun _ _ _ => .resp ⟨true, 200, [⟨"A", "M", 5, none⟩]⟩)
    (fun _ _ _ => .thrown ⟨"TypeError"⟩) "W" "M" ["A"] (fun _ => none)
    (fetchPricesBulk (fun _ _ _ => .resp ⟨true, 200, [⟨"A", "M", 5, none⟩]⟩)
      "W" "M" ["A"] (fun _ => none)).state rfl

/-- Every verdict the selection emits satisfies the invariant. -/
theorem pick_some_ok (rows : List PriceRow) (city item : String) (q : PickedPrice)
    (h : pickPreferredOrMinOther rows city item = some q) : PickedOk q := by
  unfold pickPreferredOrMinOther at h
  by_cases hany : rows.any (fun r => r.item_id == item) = true
  · rw [if_pos hany] at h
    have := Option.some.inj h
    rw [← this]
    exact pickOne_zero_iff _ _
  · rw [if_neg hany] at h
    cases h

/-- The default verdict satisfies the invariant, hence so does every chunk
write. -/
theorem pickVal_ok (rows : List PriceRow) (city item : String) :
    PickedOk ((pickPreferredOrMinOther rows city item).getD
      { price := 0, cityUsed := none }) := by
  cases hp : pickPreferredOrMinOther rows city item with
  | none => exact ⟨fun _ => rfl, fun _ => rfl⟩
  | some q => simpa using pick_some_ok rows city item q hp

/-- The hit pass preserves the invariant. -/
theorem hitLoop_stateOk (server city : String) :
    ∀ (l : List String) (st : BulkState), StateOk st →
      StateOk (hitLoop server city l st).1 := by
  intro l
  induction l with
  | nil => intro st h; exact h
  | cons id0 rest ih =>
      intro st h
      unfold hitLoop
      cases hc : st.cache (cacheKey server city id0) with
      | some p =>
          refine ih _ ⟨?_, h.2⟩
          intro id q hq
          simp only [mapSet] at hq
          by_cases hid : id = id0
          · rw [if_pos hid] at hq
            have := Option.some.inj hq
            rw [← this]
            exact h.2 _ p hc
          · rw [if_neg hid] at hq
            exact h.1 id q hq
      | none => exact ih st h

/-- Recording a chunk preserves the invariant. -/
theorem applyChunk_stateOk (server city : String)
    (pc : String → Option PickedPrice)
    (hpc : ∀ id q, pc id = some q → PickedOk q) :
    ∀ (ids : List String) (st : BulkState), StateOk st →
      StateOk (applyChunk server city pc ids st) := by
  intro ids
  induction ids with
  | nil => intro st h; exact h
  | cons id0 rest ih =>
      intro st h
      unfold applyChunk
      rw [List.foldl_cons]
      refine ih _ ?_
      have hdef : PickedOk ((pc id0).getD { price := 0, cityUsed := none }) := by
        cases hp : pc id0 with
        | none => exact ⟨fun _ => rfl, fun _ => rfl⟩
        | some q => simpa using hpc id0 q hp
      constructor
      · intro id q hq
        unfold applyId at hq
        simp only [mapSet] at hq
        by_cases hid : id = id0
        · rw [if_pos hid] at hq
          rw [← Option.some.inj hq]
          exact hdef
        · rw [if_neg hid] at hq
          exact h.1 id q hq
      · intro k q hq
        unfold applyId at hq
        simp only [mapSet] at hq
        by_cases hk : k = cacheKey server city id0
        · rw [if_pos hk] at hq
          rw [← Option.some.inj hq]
          exact hdef
        · rw [if_neg hk] at hq
          exact h.2 k q hq

/-- The chunk loop preserves the invariant. -/
theorem processChunks_stateOk (net : Net) (server city : String) :
    ∀ (chunks : List (List String)) (st st' : BulkState),
      processChunks net server city chunks st = .ok st' → StateOk st → StateOk st' := by
  intro chunks
  induction chunks with
  | nil => intro st st' h hok; cases h; exact hok
  | cons c0 rest ih =>
      intro st st' h hok
      unfold processChunks at h
      cases hfc : fetchMultiCity net c0 (citiesFor city) with
      | thrown e0 => rw [hfc] at h; cases h
      | rows rows =>
          rw [hfc] at h
          dsimp only at h
          refine ih _ st' h ?_
          exact applyChunk_stateOk server city _
            (fun id q hq => pick_some_ok rows city id q hq) c0 _ ⟨hok.1, hok.2⟩

/-- Claim C4: a price of zero pairs with a null city and vice versa — for
every verdict the selection emits, for the result on items whose candidate
rows are all nonpositive, and for every entry of the `picked` map and the
cache after a successful bulk call over an invariant-respecting cache. -/
theorem claim4_zero_iff_null :
    (∀ (rows : List PriceRow) (preferCity item : String) (p : PickedPrice),
      pickPreferredOrMinOther rows preferCity item = some p →
      (p.price = 0 ↔ p.cityUsed = none)) ∧
    (∀ (rows : List PriceRow) (preferCity item : String),
      (∀ r ∈ rows, r.item_id = item → r.sell_price_min ≤ 0) →
      ∀ p, pickPreferredOrMinOther rows preferCity item = some p →
        p = { price := 0, cityUsed := none }) ∧
    (∀ (net : Net) (server city : String) (itemIds : List String)
      (cache0 : String → Option PickedPrice) (st : BulkState),
      (∀ k q, cache0 k = some q → (q.price = 0 ↔ q.cityUsed = none)) →
      fetchPricesBulk net server city itemIds cache0 = .ok st →
      (∀ id q, st.picked id = some q → (q.price = 0 ↔ q.cityUsed = none)) ∧
      (∀ k q, st.cache k = some q → (q.price = 0 ↔ q.cityUsed = none))) := by
  refine ⟨fun rows preferCity item p hp => pick_some_ok rows preferCity item p hp,
    ?_, ?_⟩
  · intro rows preferCity item hnp p hp
    unfold pickPreferredOrMinOther at hp
    by_cases hany : rows.any (fun r => r.item_id == item) = true
    · rw [if_pos hany] at hp
      rw [← Option.some.inj hp]
      refine pickOne_nonpos _ _ ?_
      intro r hr
      have := List.mem_filter.mp hr
      exact hnp r this.1 (by simpa using this.2)
    · rw [if_neg hany] at hp
      cases hp
  · intro net server city itemIds cache0 st hc0 h
    have hinit : StateOk (initState cache0) :=
      ⟨fun id q hq => Option.noConfusion hq, fun k q hq => hc0 k q hq⟩
    have hhit : StateOk (hitLoop server city (uniqueFirst itemIds) (initState cache0)).1 :=
      hitLoop_stateOk server city _ _ hinit
    rw [fetchPricesBulk_eq] at h
    by_cases hemp : (missOf server city itemIds cache0).isEmpty
    · rw [if_pos hemp] at h
      cases h
      exact hhit
    · rw [if_neg hemp] at h
      exact processChunks_stateOk net server city _ _ st h hhit

/-- Witness for claim C4, applying the selection part at a concrete verdict
and the all-nonpositive part at a concrete all-zero row set. -/
theorem claim4_zero_iff_null_witness :
    ((5 : ℚ) = 0 ↔ (some "M" : Option String) = none) ∧
    (⟨0, none⟩ : PickedPrice) = { price := 0, cityUsed := none } :=
  ⟨claim4_zero_iff_null.1 [⟨"A", "M", 5, none⟩] "M" "A" ⟨5, some "M"⟩ (by decide),
    claim4_zero_iff_null.2.1 [⟨"A", "M", 0, none⟩] "M" "A"
      (by intro r hr _; simp at hr; rw [hr]) ⟨0, none⟩ (by decide)⟩

/-- Claim C8: `computeItemValue` equals the specified closed formula — with
the claim's multiplier table spelled out — and the concrete instance
`computeItemValue(4, 0, 24, Standard, false) = 384` holds. -/
theorem claim8_item_value :
    (∀ (tier enchant : ℤ) (numItems : ℚ) (arteType : ArteType) (s : Bool),
      computeItemValue tier enchant numItems arteType s =
        numItems * (16 * (2 : ℚ) ^ (tier + enchant - 4) +
          (match arteType with
            | .Standard => (0 : ℚ)
            | .Rune => 4
            | .Soul => 12
            | .Relic => 28
            | .Mist => 28
            | .Avalonian => 60
            | .Crystal => 60) * (2 : ℚ) ^ (tier - 4)) *
          (if s then 16 / 11 else 1)) ∧
    computeItemValue 4 0 24 .Standard false = 384 := by
  constructor
  · intro tier enchant numItems arteType s
    cases arteType <;> rfl
  · norm_num [computeItemValue, pow2, ART_MULT, shapeMult]

/-- Claim C9: `computeUsageFee` is exactly
`itemValue * 0.1125 * (stationFeePer100 / 100)`, and
`computeUsageFee(1000, 100) = 112.5`. -/
theorem claim9_usage_fee :
    (∀ itemValue stationFeePer100 : ℚ,
      computeUsageFee itemValue stationFeePer100 =
        itemValue * 0.1125 * (stationFeePer100 / 100)) ∧
    computeUsageFee 1000 100 = 112.5 := by
  refine ⟨fun _ _ => rfl, ?_⟩
  norm_num [computeUsageFee]

/-- Claim C5, counterexample.  With both the artefact price and the
substitute price missing, the chosen artefact cost is `Infinity`, and the
material cost becomes `Infinity` — not the zero contribution the claim
demands. -/
theorem claim5_counterexample :
    pickArtefactOrCrystallized .Standard "T4_ARTEFACT_MAIN_X" (fun _ => none) = ⊤ ∧
    materialCostOf 0
      (pickArtefactOrCrystallized .Standard "T4_ARTEFACT_MAIN_X" (fun _ => none)) 0 = ⊤ ∧
    materialCostOf 0
        (pickArtefactOrCrystallized .Standard "T4_ARTEFACT_MAIN_X" (fun _ => none)) 0 ≠
      ((0 : ℚ) : WithTop ℚ) := by
  refine ⟨rfl, rfl, by decide⟩

/-- Claim C5 as amended: the scanner's artefact cost is the cheaper of the
raw artefact's resolved price and the rarity's crystallized substitute's
resolved price, a missing price never being chosen while the other is
present; but when both prices are missing the chosen cost is `Infinity` —
making the recipe's material cost infinite — not a zero contribution. -/
theorem claim5_amended (t : ArteType) (aid : String) (prices : String → Option ℚ)
    (ab tome : ℚ) :
    (∀ a b, prices aid = some a → subPriceOf t prices = some b →
      pickArtefactOrCrystallized t aid prices = ((min a b : ℚ) : WithTop ℚ)) ∧
    (∀ a, prices aid = some a → subPriceOf t prices = none →
      pickArtefactOrCrystallized t aid prices = (a : WithTop ℚ)) ∧
    (∀ b, prices aid = none → subPriceOf t prices = some b →
      pickArtefactOrCrystallized t aid prices = (b : WithTop ℚ)) ∧
    (prices aid = none → subPriceOf t prices = none →
      pickArtefactOrCrystallized t aid prices = ⊤ ∧
      materialCostOf ab (pickArtefactOrCrystallized t aid prices) tome = ⊤) := by
  have hsome : ∀ id v, prices id = some v → priceOrInf prices id = (v : WithTop ℚ) := by
    intro id v h; unfold priceOrInf; rw [h]
  have hnone : ∀ id, prices id = none → priceOrInf prices id = ⊤ := by
    intro id h; unfold priceOrInf; rw [h]
  have hsub_some : ∀ b, subPriceOf t prices = some b →
      subPriceInf t prices = (b : WithTop ℚ) := by
    intro b hb
    unfold subPriceOf at hb
    unfold subPriceInf
    cases hcf : CRYSTALIZED_FOR t with
    | none => rw [hcf] at hb; cases hb
    | some subId =>
        rw [hcf] at hb
        simp only [Option.some_bind] at hb
        exact hsome subId b hb
  have hsub_none : subPriceOf t prices = none → subPriceInf t prices = ⊤ := by
    intro hb
    unfold subPriceOf at hb
    unfold subPriceInf
    cases hcf : CRYSTALIZED_FOR t with
    | none => rfl
    | some subId =>
        rw [hcf] at hb
        simp only [Option.some_bind] at hb
        exact hnone subId hb
  refine ⟨?_, ?_, ?_, ?_⟩
  · intro a b ha hb
    unfold pickArtefactOrCrystallized
    rw [hsome aid a ha, hsub_some b hb]
    by_cases hab : a ≤ b
    · rw [if_pos (WithTop.coe_le_coe.mpr hab), min_eq_left hab]
    · rw [if_neg (fun hc => hab (WithTop.coe_le_coe.mp hc)),
        min_eq_right (le_of_not_le hab)]
  · intro a ha hb
    unfold pickArtefactOrCrystallized
    rw [hsome aid a ha, hsub_none hb, if_pos le_top]
  · intro b ha hb
    unfold pickArtefactOrCrystallized
    rw [hnone aid ha, hsub_some b hb,
      if_neg (fun hc => WithTop.coe_ne_top (top_le_iff.mp hc))]
  · intro ha hb
    have hpick : pickArtefactOrCrystallized t aid prices = ⊤ := by
      unfold pickArtefactOrCrystallized
      rw [hnone aid ha, hsub_none hb, if_pos le_rfl]
    refine ⟨hpick, ?_⟩
    rw [hpick]
    unfold materialCostOf
    rw [add_top, top_add]

/-- Witness for the amended claim C5: artefact at 500 against substitute at
300 yields the substitute's 300. -/
theorem claim5_amended_witness :
    pickArtefactOrCrystallized .Rune "ART"
        (fun id => if id = "ART" then some (500 : ℚ)
          else if id = "CRYSTALLIZED_SPIRIT" then some 300 else none) =
      ((min (500 : ℚ) 300 : ℚ) : WithTop ℚ) ∧
    (min (500 : ℚ) 300 : ℚ) = 300 :=
  ⟨(claim5_amended .Rune "ART"
      (fun id => if id = "ART" then some (500 : ℚ)
        else if id = "CRYSTALLIZED_SPIRIT" then some 300 else none) 0 0).1
    500 300 (by decide) (by decide), by norm_num⟩

/-- Claim C2: with requested qualities, a row with a set quality outside the
allowed set is discarded before selection, a row without a quality field
participates, and the participating rows are exactly the original rows whose
quality (if set) is allowed; with no requested qualities every row
participates; and selection runs on exactly the filtered rows. -/
theorem claim2_quality_filter (qs : List ℕ) (rows : List PriceRow)
    (preferCity item : String) :
    (∀ r ∈ rows, ∀ q, r.quality = some q → q ∉ qs →
      r ∉ filterByQuality (some qs) rows) ∧
    (∀ r ∈ rows, r.quality = none → r ∈ filterByQuality (some qs) rows) ∧
    (∀ r, r ∈ filterByQuality (some qs) rows ↔
      r ∈ rows ∧ ∀ q, r.quality = some q → q ∈ qs) ∧
    filterByQuality none rows = rows ∧
    pickWithQuality (some qs) rows preferCity item =
      pickPreferredOrMinOther (filterByQuality (some qs) rows) preferCity item ∧
    pickWithQuality none rows preferCity item =
      pickPreferredOrMinOther rows preferCity item := by
  have hmem : ∀ r, r ∈ filterByQuality (some qs) rows ↔
      r ∈ rows ∧ ∀ q, r.quality = some q → q ∈ qs := by
    intro r
    unfold filterByQuality
    rw [List.mem_filter]
    unfold passesQuality
    constructor
    · rintro ⟨hr, hpass⟩
      refine ⟨hr, ?_⟩
      intro q hq
      rw [hq] at hpass
      simpa using hpass
    · rintro ⟨hr, hq⟩
      refine ⟨hr, ?_⟩
      cases hql : r.quality with
      | none => rfl
      | some q => simpa using hq q hql
  refine ⟨?_, ?_, hmem, rfl, rfl, rfl⟩
  · intro r _ q hq hqs hmem'
    exact hqs (((hmem r).mp hmem').2 q hq)
  · intro r hr hq
    exact (hmem r).mpr ⟨hr, fun q hql => by rw [hq] at hql; cases hql⟩

/-- Witness for claim C2: with allowed qualities `[1]`, a quality-2 row is
discarded while a quality-free row passes. -/
theorem claim2_quality_filter_witness :
    (⟨"A", "M", 5, some 2⟩ : PriceRow) ∉
      filterByQuality (some [1]) [⟨"A", "M", 5, some 2⟩, ⟨"A", "X", 3, none⟩] ∧
    (⟨"A", "X", 3, none⟩ : PriceRow) ∈
      filterByQuality (some [1]) [⟨"A", "M", 5, some 2⟩, ⟨"A", "X", 3, none⟩] :=
  ⟨(claim2_quality_filter [1] [⟨"A", "M", 5, some 2⟩, ⟨"A", "X", 3, none⟩] "M" "A").1
      ⟨"A", "M", 5, some 2⟩ (by decide) 2 rfl (by decide),
    (claim2_quality_filter [1] [⟨"A", "M", 5, some 2⟩, ⟨"A", "X", 3, none⟩] "M" "A").2.1
      ⟨"A", "X", 3, none⟩ (by decide) rfl⟩

end Albion
